import Mathlib

/-!
A shallow embedding of the `gasteiger-rs` crate: iterative Gasteiger–Marsili
partial-charge computation.  Machine `f64` arithmetic is modelled by exact
rational arithmetic `ℚ`; atom/bond trait objects are modelled by structures
carrying exactly the data the solver reads through the traits.

Sources embedded: `src/parameters.rs` (parameter table), `src/solver.rs`
(hybridization estimator and charge solver), `src/traits.rs` (data model).
-/

/-- `GasteigerParams` from `src/parameters.rs`: coefficients of the
electronegativity quadratic `a + b*q + c*q^2`. -/
structure GasteigerParams where
  a : ℚ
  b : ℚ
  c : ℚ
deriving DecidableEq, Repr

/-- `Hybridization` from `src/parameters.rs`. -/
inductive Hybridization where
  | Sp3
  | Sp2
  | Sp
  | Default
deriving DecidableEq, Repr

open Hybridization

/-- `get_params` from `src/parameters.rs`: the static electronegativity
parameter table, keyed by `(atomic_number, hybridization)`. -/
def get_params (atomic_number : ℕ) (hybridization : Hybridization) :
    Option GasteigerParams :=
  match atomic_number, hybridization with
  -- Hydrogen
  | 1, _ => some ⟨7.17, 6.24, -0.56⟩
  -- Carbon
  | 6, Sp3 => some ⟨7.98, 9.18, 1.88⟩
  | 6, Sp2 => some ⟨8.79, 9.32, 1.51⟩
  | 6, Sp => some ⟨10.39, 9.45, 0.73⟩
  -- Nitrogen
  | 7, Sp3 => some ⟨11.54, 10.82, 1.36⟩
  | 7, Sp2 => some ⟨12.87, 11.15, 0.85⟩
  | 7, Sp => some ⟨15.68, 11.7, -0.27⟩
  -- Oxygen
  | 8, Sp3 => some ⟨14.12, 12.92, 1.39⟩
  | 8, Sp2 => some ⟨17.07, 13.79, 0.47⟩
  -- Fluorine
  | 9, _ => some ⟨14.66, 13.85, 2.31⟩
  -- Chlorine
  | 17, _ => some ⟨10.18, 9.38, 1.13⟩
  -- Bromine
  | 35, _ => some ⟨9.9, 8.29, 1.01⟩
  -- Iodine
  | 53, _ => some ⟨8.85, 7.17, 0.99⟩
  -- Phosphorus
  | 15, _ => some ⟨8.90, 8.12, 0.31⟩
  -- Sulfur
  | 16, Sp3 => some ⟨10.14, 9.13, 1.38⟩
  | 16, Sp2 => some ⟨10.88, 9.47, 1.33⟩
  -- Fallback for unsupported elements/states
  | _, _ => none

/-- An atom as the solver reads it through the `GasteigerAtom` trait of
`src/traits.rs`: an atomic number and a formal charge. -/
structure Atom where
  atomic_number : ℕ
  formal_charge : ℚ
deriving DecidableEq, Repr

instance : Inhabited Atom := ⟨⟨0, 0⟩⟩

/-- A bond as the solver reads it through the `GasteigerBond` trait of
`src/traits.rs`: a pair of atom indices and a bond order. -/
structure Bond where
  atom_indices : ℕ × ℕ
  bond_order : ℚ
deriving DecidableEq, Repr

/-- `GasteigerSolver` from `src/solver.rs` (configuration fields). -/
structure GasteigerSolver where
  iterations : ℕ
  damping : ℚ
deriving DecidableEq, Repr

/-- The `Default` impl for `GasteigerSolver`: 6 iterations, damping 0.5. -/
def GasteigerSolver.default : GasteigerSolver := ⟨6, 0.5⟩

/-- `calculate_electronegativity` from `src/solver.rs`:
`p.a + p.b * q + p.c * q * q`. -/
def calculate_electronegativity (p : GasteigerParams) (q : ℚ) : ℚ :=
  p.a + p.b * q + p.c * q * q

/-- The incident-bond counting loop of `guess_hybridization`
(`src/solver.rs` lines 86–93): one increment per bond whose first or second
endpoint equals `atom_idx`. -/
def neighbor_count (atom_idx : ℕ) (bonds : List Bond) : ℕ :=
  bonds.foldl
    (fun acc bond =>
      if bond.atom_indices.1 = atom_idx ∨ bond.atom_indices.2 = atom_idx then
        acc + 1
      else acc)
    0

/-- `guess_hybridization` from `src/solver.rs`: element-specific degree
thresholds applied to the incident-bond count. -/
def guess_hybridization (atom_idx : ℕ) (atoms : List Atom)
    (bonds : List Bond) : Hybridization :=
  let atomic_number := (atoms.getD atom_idx default).atomic_number
  let nc := neighbor_count atom_idx bonds
  match atomic_number with
  | 6 => -- Carbon
    if nc ≥ 4 then Sp3
    else if nc = 3 then Sp2
    else if nc ≤ 2 then Sp
    else Sp3
  | 7 => -- Nitrogen
    if nc ≥ 3 then Sp3
    else if nc = 2 then Sp2
    else Sp
  | 8 => -- Oxygen
    if nc ≥ 2 then Sp3 else Sp2
  | 15 => -- Phosphorus
    Sp3
  | 16 => -- Sulfur
    if nc ≥ 2 then Sp3 else Sp2
  | _ => Hybridization.Default

/-- The per-atom parameter resolution of `compute_charges`
(`src/solver.rs` lines 33–36): estimated hybridization, then `Sp3`,
then `Default`. -/
def resolve_params (atoms : List Atom) (bonds : List Bond) (i : ℕ) :
    Option GasteigerParams :=
  let hybrid := guess_hybridization i atoms bonds
  let an := (atoms.getD i default).atomic_number
  ((get_params an hybrid).orElse fun _ => get_params an Sp3).orElse
    fun _ => get_params an Hybridization.Default

/-- The `atom_params` vector of `compute_charges` (`src/solver.rs`
lines 31–38): parameters resolved once per atom, before iterating. -/
def atom_params (atoms : List Atom) (bonds : List Bond) :
    List (Option GasteigerParams) :=
  (List.range atoms.length).map (resolve_params atoms bonds)

/-- One step of the bond loop of `compute_charges` (`src/solver.rs`
lines 44–65): skip the bond if an endpoint is out of range or lacks
resolved parameters, otherwise move `dq` between the endpoints in the
delta vector according to the electronegativity difference. -/
def process_bond (n_atoms : ℕ) (current_damping : ℚ)
    (params : List (Option GasteigerParams)) (charges : List ℚ)
    (delta : List ℚ) (bond : Bond) : List ℚ :=
  let i := bond.atom_indices.1
  let j := bond.atom_indices.2
  if i ≥ n_atoms ∨ j ≥ n_atoms then delta
  else
    match params.getD i none, params.getD j none with
    | some p_i, some p_j =>
      let chi_i := calculate_electronegativity p_i (charges.getD i 0)
      let chi_j := calculate_electronegativity p_j (charges.getD j 0)
      let chi_plus_i := calculate_electronegativity p_i 1
      let chi_plus_j := calculate_electronegativity p_j 1
      if chi_j > chi_i then
        let dq := current_damping * (chi_j - chi_i) / chi_plus_i
        let d1 := delta.set i (delta.getD i 0 + dq)
        d1.set j (d1.getD j 0 - dq)
      else if chi_i > chi_j then
        let dq := current_damping * (chi_i - chi_j) / chi_plus_j
        let d1 := delta.set j (delta.getD j 0 + dq)
        d1.set i (d1.getD i 0 - dq)
      else delta
    | _, _ => delta

/-- One pass of the iteration loop of `compute_charges` (`src/solver.rs`
lines 42–69): accumulate deltas over all bonds against the fixed pre-pass
charge snapshot, then add the delta vector into the charges. -/
def run_pass (n_atoms : ℕ) (current_damping : ℚ)
    (params : List (Option GasteigerParams)) (bonds : List Bond)
    (charges : List ℚ) : List ℚ :=
  let delta :=
    bonds.foldl (process_bond n_atoms current_damping params charges)
      (List.replicate n_atoms 0)
  List.zipWith (· + ·) charges delta

/-- The iteration loop of `compute_charges` (`src/solver.rs` lines 40–71):
run the remaining passes, multiplying the running damping factor by
`damping` after each pass. -/
def compute_loop (s : GasteigerSolver) (n_atoms : ℕ)
    (params : List (Option GasteigerParams)) (bonds : List Bond) :
    ℕ → ℚ → List ℚ → List ℚ
  | 0, _, charges => charges
  | k + 1, current_damping, charges =>
    compute_loop s n_atoms params bonds k (current_damping * s.damping)
      (run_pass n_atoms current_damping params bonds charges)

/-- `GasteigerSolver::compute_charges` from `src/solver.rs`: seed the
charges from the formal charges, resolve per-atom parameters, then run
`iterations` damped passes. -/
def compute_charges (s : GasteigerSolver) (atoms : List Atom)
    (bonds : List Bond) : List ℚ :=
  let n_atoms := atoms.length
  let charges := atoms.map (·.formal_charge)
  let params := atom_params atoms bonds
  compute_loop s n_atoms params bonds s.iterations 1 charges

/-- The charge vector after the first `k` passes of `compute_charges`
(so `k = s.iterations` gives the returned vector). -/
def charges_after (s : GasteigerSolver) (atoms : List Atom)
    (bonds : List Bond) (k : ℕ) : List ℚ :=
  compute_loop s atoms.length (atom_params atoms bonds) bonds k 1
    (atoms.map (·.formal_charge))

/-- The per-bond transfer rule as stated in the spec (§4.3), reformulated as
the signed amount one bond contributes to entry `v` of the delta vector of a
pass, computed from the pre-pass charge snapshot.  This is the statement-side
counterpart of `process_bond`; the claim theorems relate the two. -/
def bond_transfer_rule (n_atoms : ℕ) (damping_factor : ℚ)
    (params : List (Option GasteigerParams)) (charges : List ℚ)
    (bond : Bond) (v : ℕ) : ℚ :=
  let i := bond.atom_indices.1
  let j := bond.atom_indices.2
  if i ≥ n_atoms ∨ j ≥ n_atoms then 0
  else
    match params.getD i none, params.getD j none with
    | some p_i, some p_j =>
      let chi_i := calculate_electronegativity p_i (charges.getD i 0)
      let chi_j := calculate_electronegativity p_j (charges.getD j 0)
      if chi_j > chi_i then
        let dq := damping_factor * (chi_j - chi_i) /
          calculate_electronegativity p_i 1
        (if v = i then dq else 0) - (if v = j then dq else 0)
      else if chi_i > chi_j then
        let dq := damping_factor * (chi_i - chi_j) /
          calculate_electronegativity p_j 1
        (if v = j then dq else 0) - (if v = i then dq else 0)
      else 0
    | _, _ => 0

/-! ### List helper lemmas -/

lemma getD_set_self (l : List ℚ) (i : ℕ) (a : ℚ) (h : i < l.length) :
    (l.set i a).getD i 0 = a := by
  induction l generalizing i with
  | nil => simp at h
  | cons x xs ih =>
    cases i with
    | zero => rfl
    | succ n => exact ih n (by simpa using h)

lemma getD_set_ne (l : List ℚ) (i v : ℕ) (a : ℚ) (h : v ≠ i) :
    (l.set i a).getD v 0 = l.getD v 0 := by
  induction l generalizing i v with
  | nil => simp [List.set]
  | cons x xs ih =>
    cases i with
    | zero =>
      cases v with
      | zero => exact absurd rfl h
      | succ m => rfl
    | succ n =>
      cases v with
      | zero => rfl
      | succ m => exact ih n m (fun hc => h (by simp [hc]))

lemma sum_set_getD (l : List ℚ) (i : ℕ) (a : ℚ) (h : i < l.length) :
    (l.set i a).sum = l.sum - l.getD i 0 + a := by
  induction l generalizing i with
  | nil => simp at h
  | cons x xs ih =>
    cases i with
    | zero => simp [List.getD]; ring
    | succ n =>
      have := ih n (by simpa using h)
      simp only [List.set, List.sum_cons, this, List.getD]
      simp [List.getD] at this ⊢
      ring

lemma getD_zipWith_add (c d : List ℚ) (h : c.length = d.length) (v : ℕ) :
    (List.zipWith (· + ·) c d).getD v 0 = c.getD v 0 + d.getD v 0 := by
  induction c generalizing d v with
  | nil =>
    cases d with
    | nil => simp [List.getD]
    | cons y ys => simp at h
  | cons x xs ih =>
    cases d with
    | nil => simp at h
    | cons y ys =>
      cases v with
      | zero => rfl
      | succ m => exact ih ys (by simpa using h) m

lemma sum_zipWith_add (c d : List ℚ) (h : c.length = d.length) :
    (List.zipWith (· + ·) c d).sum = c.sum + d.sum := by
  induction c generalizing d with
  | nil =>
    cases d with
    | nil => simp
    | cons y ys => simp at h
  | cons x xs ih =>
    cases d with
    | nil => simp at h
    | cons y ys =>
      simp only [List.zipWith_cons_cons, List.sum_cons,
        ih ys (by simpa using h)]
      ring

lemma getD_replicate_zero (n v : ℕ) :
    (List.replicate n (0 : ℚ)).getD v 0 = 0 := by
  induction n generalizing v with
  | zero => simp [List.getD]
  | succ m ih =>
    cases v with
    | zero => rfl
    | succ w => exact ih w

lemma getD_eq_get (l : List ℚ) (i : ℕ) (h : i < l.length) :
    l.getD i 0 = l.get ⟨i, h⟩ := by
  induction l generalizing i with
  | nil => simp at h
  | cons x xs ih =>
    cases i with
    | zero => rfl
    | succ n => exact ih n (by simpa using h)

/-! ### Structural lemmas about one bond step -/

lemma process_bond_length (n : ℕ) (d : ℚ)
    (params : List (Option GasteigerParams)) (charges delta : List ℚ)
    (b : Bond) :
    (process_bond n d params charges delta b).length = delta.length := by
  simp only [process_bond]
  split
  · rfl
  · split
    · split
      · simp
      · split
        · simp
        · rfl
    · rfl

lemma process_bond_sum (n : ℕ) (d : ℚ)
    (params : List (Option GasteigerParams)) (charges delta : List ℚ)
    (b : Bond) (hlen : delta.length = n) :
    (process_bond n d params charges delta b).sum = delta.sum := by
  simp only [process_bond]
  split
  · rfl
  · next hrange =>
    push_neg at hrange
    have hi : b.atom_indices.1 < delta.length := by omega
    have hj : b.atom_indices.2 < delta.length := by omega
    split
    · split
      · rw [sum_set_getD _ _ _ (by simpa using hj),
          sum_set_getD _ _ _ hi]
        ring
      · split
        · rw [sum_set_getD _ _ _ (by simpa using hi),
            sum_set_getD _ _ _ hj]
          ring
        · rfl
    · rfl

lemma foldl_process_bond_length (n : ℕ) (d : ℚ)
    (params : List (Option GasteigerParams)) (charges : List ℚ)
    (bonds : List Bond) (acc : List ℚ) :
    (bonds.foldl (process_bond n d params charges) acc).length = acc.length := by
  induction bonds generalizing acc with
  | nil => rfl
  | cons b bs ih => rw [List.foldl_cons, ih, process_bond_length]

lemma foldl_process_bond_sum (n : ℕ) (d : ℚ)
    (params : List (Option GasteigerParams)) (charges : List ℚ)
    (bonds : List Bond) (acc : List ℚ) (hlen : acc.length = n) :
    (bonds.foldl (process_bond n d params charges) acc).sum = acc.sum := by
  induction bonds generalizing acc with
  | nil => rfl
  | cons b bs ih =>
    rw [List.foldl_cons, ih _ (by rw [process_bond_length]; exact hlen),
      process_bond_sum _ _ _ _ _ _ hlen]

lemma run_pass_length (n : ℕ) (d : ℚ)
    (params : List (Option GasteigerParams)) (bonds : List Bond)
    (charges : List ℚ) (hlen : charges.length = n) :
    (run_pass n d params bonds charges).length = n := by
  simp only [run_pass, List.length_zipWith, foldl_process_bond_length,
    List.length_replicate, hlen, min_self]

lemma run_pass_sum (n : ℕ) (d : ℚ)
    (params : List (Option GasteigerParams)) (bonds : List Bond)
    (charges : List ℚ) (hlen : charges.length = n) :
    (run_pass n d params bonds charges).sum = charges.sum := by
  simp only [run_pass]
  rw [sum_zipWith_add _ _ (by
      rw [hlen, foldl_process_bond_length, List.length_replicate]),
    foldl_process_bond_sum _ _ _ _ _ _ (List.length_replicate _ _)]
  simp

lemma compute_loop_length (s : GasteigerSolver) (n : ℕ)
    (params : List (Option GasteigerParams)) (bonds : List Bond)
    (k : ℕ) (d : ℚ) (charges : List ℚ) (hlen : charges.length = n) :
    (compute_loop s n params bonds k d charges).length = n := by
  induction k generalizing d charges with
  | zero => exact hlen
  | succ m ih =>
    exact ih _ _ (run_pass_length _ _ _ _ _ hlen)

lemma compute_loop_sum (s : GasteigerSolver) (n : ℕ)
    (params : List (Option GasteigerParams)) (bonds : List Bond)
    (k : ℕ) (d : ℚ) (charges : List ℚ) (hlen : charges.length = n) :
    (compute_loop s n params bonds k d charges).sum = charges.sum := by
  induction k generalizing d charges with
  | zero => rfl
  | succ m ih =>
    rw [compute_loop, ih _ _ (run_pass_length _ _ _ _ _ hlen),
      run_pass_sum _ _ _ _ _ hlen]

lemma set_pair_getD (delta : List ℚ) (i j v : ℕ) (dq : ℚ)
    (hi : i < delta.length) (hj : j < delta.length) :
    ((delta.set i (delta.getD i 0 + dq)).set j
        ((delta.set i (delta.getD i 0 + dq)).getD j 0 - dq)).getD v 0 =
      delta.getD v 0 + ((if v = i then dq else 0) - (if v = j then dq else 0)) := by
  by_cases hvi : v = i
  · subst hvi
    by_cases hvj : v = j
    · subst hvj
      rw [getD_set_self _ _ _ (by simpa using hi), getD_set_self _ _ _ hi]
      simp
    · rw [getD_set_ne _ _ _ _ hvj, getD_set_self _ _ _ hi, if_pos rfl,
        if_neg hvj]
      ring
  · by_cases hvj : v = j
    · subst hvj
      rw [getD_set_self _ _ _ (by simpa using hj),
        getD_set_ne _ _ _ _ hvi, if_neg hvi, if_pos rfl]
      ring
    · rw [getD_set_ne _ _ _ _ hvj, getD_set_ne _ _ _ _ hvi,
        if_neg hvi, if_neg hvj]
      ring

lemma process_bond_getD (n : ℕ) (d : ℚ)
    (params : List (Option GasteigerParams)) (charges delta : List ℚ)
    (b : Bond) (v : ℕ) (hlen : delta.length = n) :
    (process_bond n d params charges delta b).getD v 0 =
      delta.getD v 0 + bond_transfer_rule n d params charges b v := by
  obtain ⟨⟨i, j⟩, o⟩ := b
  simp only [process_bond, bond_transfer_rule]
  split
  · simp
  · next hrange =>
    push_neg at hrange
    have hi : i < delta.length := by omega
    have hj : j < delta.length := by omega
    split
    · next p_i p_j heqi heqj =>
      rcases lt_trichotomy (calculate_electronegativity p_i (charges.getD i 0))
          (calculate_electronegativity p_j (charges.getD j 0)) with h1 | h1 | h1
      · simp only [gt_iff_lt, if_pos h1]
        exact set_pair_getD delta i j v _ hi hj
      · have hn1 : ¬ (calculate_electronegativity p_i (charges.getD i 0) <
            calculate_electronegativity p_j (charges.getD j 0)) := by
          rw [h1]; exact lt_irrefl _
        have hn2 : ¬ (calculate_electronegativity p_j (charges.getD j 0) <
            calculate_electronegativity p_i (charges.getD i 0)) := by
          rw [h1]; exact lt_irrefl _
        simp only [gt_iff_lt, if_neg hn1, if_neg hn2]
        simp
      · have hn1 : ¬ (calculate_electronegativity p_i (charges.getD i 0) <
            calculate_electronegativity p_j (charges.getD j 0)) :=
          not_lt_of_gt h1
        simp only [gt_iff_lt, if_neg hn1, if_pos h1]
        exact set_pair_getD delta j i v _ hj hi
    · next hne =>
      rcases hpi : params.getD i none with _ | p_i
      · simp [hpi]
      · rcases hpj : params.getD j none with _ | p_j
        · simp [hpi, hpj]
        · exact absurd (hne p_i p_j hpi hpj) (fun hc => hc)

lemma foldl_process_bond_getD (n : ℕ) (d : ℚ)
    (params : List (Option GasteigerParams)) (charges : List ℚ)
    (bonds : List Bond) (acc : List ℚ) (v : ℕ) (hlen : acc.length = n) :
    (bonds.foldl (process_bond n d params charges) acc).getD v 0 =
      acc.getD v 0 +
        (bonds.map (fun b => bond_transfer_rule n d params charges b v)).sum := by
  induction bonds generalizing acc with
  | nil => simp
  | cons b bs ih =>
    rw [List.foldl_cons, ih _ (by rw [process_bond_length]; exact hlen),
      process_bond_getD _ _ _ _ _ _ _ hlen, List.map_cons, List.sum_cons]
    ring

lemma run_pass_getD (n : ℕ) (d : ℚ)
    (params : List (Option GasteigerParams)) (bonds : List Bond)
    (charges : List ℚ) (v : ℕ) (hlen : charges.length = n) :
    (run_pass n d params bonds charges).getD v 0 =
      charges.getD v 0 +
        (bonds.map (fun b => bond_transfer_rule n d params charges b v)).sum := by
  simp only [run_pass]
  rw [getD_zipWith_add _ _ (by
      rw [hlen, foldl_process_bond_length, List.length_replicate]),
    foldl_process_bond_getD _ _ _ _ _ _ _ (List.length_replicate _ _),
    getD_replicate_zero]
  ring

lemma compute_loop_succ_end (s : GasteigerSolver) (n : ℕ)
    (params : List (Option GasteigerParams)) (bonds : List Bond)
    (k : ℕ) (d : ℚ) (charges : List ℚ) :
    compute_loop s n params bonds (k + 1) d charges =
      run_pass n (d * s.damping ^ k) params bonds
        (compute_loop s n params bonds k d charges) := by
  induction k generalizing d charges with
  | zero => simp [compute_loop]
  | succ m ih =>
    have e1 : compute_loop s n params bonds (m + 1 + 1) d charges =
        compute_loop s n params bonds (m + 1) (d * s.damping)
          (run_pass n d params bonds charges) := rfl
    have e2 : compute_loop s n params bonds (m + 1) d charges =
        compute_loop s n params bonds m (d * s.damping)
          (run_pass n d params bonds charges) := rfl
    rw [e1, ih, e2,
      show d * s.damping * s.damping ^ m = d * s.damping ^ (m + 1) from by ring]

lemma charges_after_length (s : GasteigerSolver) (atoms : List Atom)
    (bonds : List Bond) (k : ℕ) :
    (charges_after s atoms bonds k).length = atoms.length := by
  simp only [charges_after]
  exact compute_loop_length _ _ _ _ _ _ _ (by simp)

lemma charges_after_succ (s : GasteigerSolver) (atoms : List Atom)
    (bonds : List Bond) (k : ℕ) :
    charges_after s atoms bonds (k + 1) =
      run_pass atoms.length (s.damping ^ k) (atom_params atoms bonds) bonds
        (charges_after s atoms bonds k) := by
  simp only [charges_after, compute_loop_succ_end, one_mul]

/-! ### Claim C1: charge conservation -/

/-- C1: For every solver configuration, atoms and bonds, the sum of the charge
vector equals the sum of the input formal charges at every iteration boundary
of `compute_charges` (charge vector after `k` passes, any `k`), and hence in
the returned vector, over exact rational arithmetic. -/
theorem compute_charges_conserves_total_charge (s : GasteigerSolver)
    (atoms : List Atom) (bonds : List Bond) :
    (∀ k : ℕ, (charges_after s atoms bonds k).sum =
      (atoms.map (·.formal_charge)).sum)
    ∧ (compute_charges s atoms bonds).sum =
      (atoms.map (·.formal_charge)).sum := by
  constructor
  · intro k
    simp only [charges_after]
    exact compute_loop_sum _ _ _ _ _ _ _ (by simp)
  · simp only [compute_charges]
    exact compute_loop_sum _ _ _ _ _ _ _ (by simp)

/-! ### Claim C2: the per-pass transfer rule -/

/-- C2: `compute_charges` returns the state after `iterations` passes, and
pass `k + 1` (1-indexed pass number `k + 1`, so the damping factor is
`damping ^ k`) updates every entry `v` by adding, over all bonds read against
the same pre-pass charge snapshot, the transfer `dq = damping^k * (χ_hi −
χ_lo) / χ⁺_lo` credited to the lower-electronegativity endpoint and debited
from the higher one, exactly as `bond_transfer_rule` states. -/
theorem compute_charges_pass_transfer_rule (s : GasteigerSolver)
    (atoms : List Atom) (bonds : List Bond) :
    compute_charges s atoms bonds = charges_after s atoms bonds s.iterations
    ∧ ∀ k v : ℕ,
      (charges_after s atoms bonds (k + 1)).getD v 0 =
        (charges_after s atoms bonds k).getD v 0 +
          (bonds.map (fun b =>
            bond_transfer_rule atoms.length (s.damping ^ k)
              (atom_params atoms bonds)
              (charges_after s atoms bonds k) b v)).sum := by
  refine ⟨rfl, fun k v => ?_⟩
  rw [charges_after_succ]
  exact run_pass_getD _ _ _ _ _ _ (charges_after_length s atoms bonds k)

/-! ### Claim C3: self-loop degree counting -/

/-- C3 (counterexample): a self-loop bond `(0, 0)` increments the
incident-bond count of atom 0 once, not twice — the incidence test is a
single disjunction per bond, so both endpoints matching still adds only 1. -/
theorem neighbor_count_self_loop_counts_once :
    neighbor_count 0 [⟨(0, 0), 1⟩] = 1 ∧
      ¬ neighbor_count 0 [⟨(0, 0), 1⟩] = 2 := by
  constructor <;> decide

/-- C3 (amended): appending any bond increments the incident-bond count of
`atom_idx` by exactly 1 when either endpoint matches (so a self-loop with both
endpoints equal to `atom_idx` counts once, the same as a bond matching on one
endpoint), and by 0 otherwise. -/
theorem neighbor_count_append_bond (atom_idx : ℕ) (bonds : List Bond)
    (bond : Bond) :
    neighbor_count atom_idx (bonds ++ [bond]) =
      neighbor_count atom_idx bonds +
        (if bond.atom_indices.1 = atom_idx ∨ bond.atom_indices.2 = atom_idx
          then 1 else 0) := by
  simp only [neighbor_count, List.foldl_append, List.foldl_cons, List.foldl_nil]
  split_ifs <;> simp

/-! ### Claim C4: hybridization degree bands -/

lemma list_getD_eq_get {α : Type} (l : List α) (d : α) (i : ℕ)
    (h : i < l.length) : l.getD i d = l.get ⟨i, h⟩ := by
  induction l generalizing i with
  | nil => simp at h
  | cons x xs ih =>
    cases i with
    | zero => rfl
    | succ n => exact ih n (by simpa using h)

/-- C4: for every in-range atom index, the estimator is the stated function of
the element of the atom and its incident-bond count `deg`: C → Sp3/Sp2/Sp at
`deg ≥ 4` / `= 3` / `≤ 2`; N → Sp3/Sp2/Sp at `deg ≥ 3` / `= 2` / `≤ 1`;
O and S → Sp3 at `deg ≥ 2`, else Sp2; P → Sp3; anything else → Default. -/
theorem guess_hybridization_degree_bands (atoms : List Atom)
    (bonds : List Bond) (idx : ℕ) (hidx : idx < atoms.length) :
    guess_hybridization idx atoms bonds =
      (let an := (atoms.get ⟨idx, hidx⟩).atomic_number
       let deg := neighbor_count idx bonds
       if an = 6 then (if deg ≥ 4 then Sp3 else if deg = 3 then Sp2 else Sp)
       else if an = 7 then
         (if deg ≥ 3 then Sp3 else if deg = 2 then Sp2 else Sp)
       else if an = 8 then (if deg ≥ 2 then Sp3 else Sp2)
       else if an = 15 then Sp3
       else if an = 16 then (if deg ≥ 2 then Sp3 else Sp2)
       else Hybridization.Default) := by
  rw [← list_getD_eq_get atoms default idx hidx]
  simp only [guess_hybridization]
  split <;> simp_all <;> split_ifs <;> first | rfl | omega

/-- C4 (witness): a carbon atom with three incident bonds resolves to Sp2. -/
theorem guess_hybridization_degree_bands_witness :
    0 < 1 ∧ guess_hybridization 0 [⟨6, 0⟩]
      [⟨(0, 1), 1⟩, ⟨(0, 2), 1⟩, ⟨(0, 3), 1⟩] = Sp2 := by
  refine ⟨by decide, ?_⟩
  have h := guess_hybridization_degree_bands [⟨6, 0⟩]
    [⟨(0, 1), 1⟩, ⟨(0, 2), 1⟩, ⟨(0, 3), 1⟩] 0 (by decide)
  rw [h]
  decide

/-! ### Claim C5: parameter table coverage -/

/-- C5: `get_params` returns `Some` exactly on the tabulated pairs: H with any
hybridization; C and N with Sp3, Sp2 or Sp; O and S with Sp3 or Sp2; F, Cl,
Br, I with any hybridization; P with any hybridization — and `None` on every
other pair, with no partial matching inside the single lookup. -/
theorem get_params_coverage (n : ℕ) (h : Hybridization) :
    (get_params n h).isSome = true ↔
      (n = 1 ∨
        ((n = 6 ∨ n = 7) ∧ (h = Sp3 ∨ h = Sp2 ∨ h = Sp)) ∨
        ((n = 8 ∨ n = 16) ∧ (h = Sp3 ∨ h = Sp2)) ∨
        (n = 9 ∨ n = 17 ∨ n = 35 ∨ n = 53) ∨
        n = 15) := by
  cases h <;> (unfold get_params; split) <;> simp_all

/-! ### Claim C6: unknown-element inertness -/

lemma bond_transfer_rule_none (n : ℕ) (d : ℚ)
    (params : List (Option GasteigerParams)) (charges : List ℚ)
    (b : Bond) (v : ℕ) (hv : params.getD v none = none) :
    bond_transfer_rule n d params charges b v = 0 := by
  obtain ⟨⟨i, j⟩, o⟩ := b
  simp only [bond_transfer_rule]
  split
  · rfl
  · split
    · next p_i p_j heqi heqj =>
      have hvi : v ≠ i := fun hc => by rw [hc, heqi] at hv; cases hv
      have hvj : v ≠ j := fun hc => by rw [hc, heqj] at hv; cases hv
      simp only [if_neg hvi, if_neg hvj]
      split_ifs <;> ring
    · rfl

lemma run_pass_getD_none (n : ℕ) (d : ℚ)
    (params : List (Option GasteigerParams)) (bonds : List Bond)
    (charges : List ℚ) (v : ℕ) (hlen : charges.length = n)
    (hv : params.getD v none = none) :
    (run_pass n d params bonds charges).getD v 0 = charges.getD v 0 := by
  rw [run_pass_getD _ _ _ _ _ _ hlen]
  have hz : (bonds.map (fun b => bond_transfer_rule n d params charges b v)).sum
      = 0 := by
    apply List.sum_eq_zero
    intro x hx
    obtain ⟨b, _, rfl⟩ := List.mem_map.mp hx
    exact bond_transfer_rule_none _ _ _ _ _ _ hv
  rw [hz, add_zero]

lemma compute_loop_getD_none (s : GasteigerSolver) (n : ℕ)
    (params : List (Option GasteigerParams)) (bonds : List Bond)
    (k : ℕ) (d : ℚ) (charges : List ℚ) (v : ℕ) (hlen : charges.length = n)
    (hv : params.getD v none = none) :
    (compute_loop s n params bonds k d charges).getD v 0 =
      charges.getD v 0 := by
  induction k generalizing d charges with
  | zero => rfl
  | succ m ih =>
    have e : compute_loop s n params bonds (m + 1) d charges =
        compute_loop s n params bonds m (d * s.damping)
          (run_pass n d params bonds charges) := rfl
    rw [e, ih _ _ (run_pass_length _ _ _ _ _ hlen),
      run_pass_getD_none _ _ _ _ _ _ hlen hv]

lemma atom_params_getD (atoms : List Atom) (bonds : List Bond) (v : ℕ)
    (hv : v < atoms.length) :
    (atom_params atoms bonds).getD v none = resolve_params atoms bonds v := by
  simp only [atom_params]
  rw [list_getD_eq_get _ _ _ (by simpa using hv)]
  simp

/-- C6: an atom whose three-step parameter resolution (estimated
hybridization, then Sp3, then Default) yields `None` has its output charge
exactly equal to its seeded formal charge: no bond involving it ever
contributes to its delta in any iteration. -/
theorem unresolved_atom_keeps_formal_charge (s : GasteigerSolver)
    (atoms : List Atom) (bonds : List Bond) (v : ℕ)
    (hv : v < atoms.length)
    (hnone : resolve_params atoms bonds v = none) :
    (compute_charges s atoms bonds).getD v 0 =
      (atoms.get ⟨v, hv⟩).formal_charge := by
  simp only [compute_charges]
  rw [compute_loop_getD_none _ _ _ _ _ _ _ _ (by simp)
      (by rw [atom_params_getD _ _ _ hv]; exact hnone),
    list_getD_eq_get _ _ _ (by simpa using hv)]
  simp

/-- C6 (witness): palladium (46) bonded to hydrogen resolves no parameters
and keeps its seeded formal charge of 0. -/
theorem unresolved_atom_keeps_formal_charge_witness :
    0 < 2 ∧ resolve_params [⟨46, 0⟩, ⟨1, 0⟩] [⟨(0, 1), 1⟩] 0 = none ∧
      (compute_charges GasteigerSolver.default [⟨46, 0⟩, ⟨1, 0⟩]
        [⟨(0, 1), 1⟩]).getD 0 0 =
        (([⟨46, 0⟩, ⟨1, 0⟩] : List Atom).get ⟨0, by decide⟩).formal_charge :=
  ⟨by decide, by decide,
    unresolved_atom_keeps_formal_charge GasteigerSolver.default
      [⟨46, 0⟩, ⟨1, 0⟩] [⟨(0, 1), 1⟩] 0 (by decide) (by decide)⟩

/-! ### Claim C7: totality and out-of-range bonds -/

/-- C7 (counterexample): an out-of-range bond is not inert — although it is
skipped by the transfer loop, it still increments the incident-bond count, so
here it flips oxygen from Sp2 to Sp3 parameters and changes the output. -/
theorem out_of_range_bond_changes_output :
    compute_charges ⟨1, 1/2⟩ [⟨8, 0⟩, ⟨1, 0⟩] [⟨(0, 1), 1⟩, ⟨(0, 5), 1⟩] ≠
      compute_charges ⟨1, 1/2⟩ [⟨8, 0⟩, ⟨1, 0⟩] [⟨(0, 1), 1⟩] := by
  norm_num [compute_charges, compute_loop, run_pass, process_bond, atom_params,
    resolve_params, guess_hybridization, neighbor_count, get_params,
    calculate_electronegativity, List.range_succ, List.set, List.replicate,
    List.zipWith]

lemma process_bond_out_of_range (n : ℕ) (d : ℚ)
    (params : List (Option GasteigerParams)) (charges delta : List ℚ)
    (b : Bond) (hb : b.atom_indices.1 ≥ n ∨ b.atom_indices.2 ≥ n) :
    process_bond n d params charges delta b = delta := by
  simp only [process_bond]
  rw [if_pos hb]

lemma foldl_process_bond_filter (n : ℕ) (d : ℚ)
    (params : List (Option GasteigerParams)) (charges : List ℚ)
    (bonds : List Bond) (acc : List ℚ) :
    (bonds.filter fun b =>
        decide (b.atom_indices.1 < n) && decide (b.atom_indices.2 < n)).foldl
      (process_bond n d params charges) acc =
    bonds.foldl (process_bond n d params charges) acc := by
  induction bonds generalizing acc with
  | nil => rfl
  | cons b bs ih =>
    rw [List.filter_cons]
    by_cases hb : b.atom_indices.1 < n ∧ b.atom_indices.2 < n
    · rw [if_pos (by simpa using hb), List.foldl_cons, List.foldl_cons, ih]
    · rw [if_neg (by simpa using hb), List.foldl_cons, ih,
        process_bond_out_of_range _ _ _ _ _ _ (by omega)]

lemma run_pass_filter (n : ℕ) (d : ℚ)
    (params : List (Option GasteigerParams)) (bonds : List Bond)
    (charges : List ℚ) :
    run_pass n d params
      (bonds.filter fun b =>
        decide (b.atom_indices.1 < n) && decide (b.atom_indices.2 < n))
      charges =
    run_pass n d params bonds charges := by
  simp only [run_pass, foldl_process_bond_filter]

lemma compute_loop_filter (s : GasteigerSolver) (n : ℕ)
    (params : List (Option GasteigerParams)) (bonds : List Bond)
    (k : ℕ) (d : ℚ) (charges : List ℚ) :
    compute_loop s n params
      (bonds.filter fun b =>
        decide (b.atom_indices.1 < n) && decide (b.atom_indices.2 < n))
      k d charges =
    compute_loop s n params bonds k d charges := by
  induction k generalizing d charges with
  | zero => rfl
  | succ m ih =>
    show compute_loop s n params _ m (d * s.damping) _ =
      compute_loop s n params bonds m (d * s.damping) _
    rw [run_pass_filter, ih]

/-- C7 (amended): `compute_charges` is total and returns one charge per atom;
every bond with an endpoint index ≥ the number of atoms is skipped by every
charge-transfer pass — the whole iteration is unchanged when such bonds are
dropped (with the per-atom parameters held fixed) — but such a bond still
increments the incident-bond count during hybridization estimation, so it can
change the resolved parameters and hence the output. -/
theorem compute_charges_total_and_skips_out_of_range (s : GasteigerSolver)
    (atoms : List Atom) (bonds : List Bond) :
    (compute_charges s atoms bonds).length = atoms.length
    ∧ compute_charges s atoms bonds =
        compute_loop s atoms.length (atom_params atoms bonds)
          (bonds.filter fun b =>
            decide (b.atom_indices.1 < atoms.length) &&
              decide (b.atom_indices.2 < atoms.length))
          s.iterations 1 (atoms.map (·.formal_charge)) := by
  constructor
  · simp only [compute_charges]
    exact compute_loop_length _ _ _ _ _ _ _ (by simp)
  · simp only [compute_charges, compute_loop_filter]

/-! ### Claim C8: bond order is never read -/

lemma neighbor_count_congr (idx : ℕ) (bonds1 bonds2 : List Bond)
    (h : bonds1.map Bond.atom_indices = bonds2.map Bond.atom_indices) :
    neighbor_count idx bonds1 = neighbor_count idx bonds2 := by
  have e : ∀ bs : List Bond, neighbor_count idx bs =
      (bs.map Bond.atom_indices).foldl
        (fun acc p => if p.1 = idx ∨ p.2 = idx then acc + 1 else acc) 0 := by
    intro bs
    simp only [neighbor_count]
    exact (List.foldl_map Bond.atom_indices
      (fun acc p => if p.1 = idx ∨ p.2 = idx then acc + 1 else acc) bs 0).symm
  rw [e, e, h]

lemma guess_hybridization_congr (idx : ℕ) (atoms : List Atom)
    (bonds1 bonds2 : List Bond)
    (h : bonds1.map Bond.atom_indices = bonds2.map Bond.atom_indices) :
    guess_hybridization idx atoms bonds1 = guess_hybridization idx atoms bonds2 := by
  simp only [guess_hybridization, neighbor_count_congr idx bonds1 bonds2 h]

lemma atom_params_congr (atoms : List Atom) (bonds1 bonds2 : List Bond)
    (h : bonds1.map Bond.atom_indices = bonds2.map Bond.atom_indices) :
    atom_params atoms bonds1 = atom_params atoms bonds2 := by
  simp only [atom_params]
  apply List.map_congr_left
  intro i _
  simp only [resolve_params, guess_hybridization_congr i atoms bonds1 bonds2 h]

lemma process_bond_congr (n : ℕ) (d : ℚ)
    (params : List (Option GasteigerParams)) (charges delta : List ℚ)
    (b c : Bond) (h : b.atom_indices = c.atom_indices) :
    process_bond n d params charges delta b =
      process_bond n d params charges delta c := by
  simp only [process_bond, h]

lemma foldl_process_bond_congr (n : ℕ) (d : ℚ)
    (params : List (Option GasteigerParams)) (charges : List ℚ)
    (bonds1 bonds2 : List Bond) (acc : List ℚ)
    (h : bonds1.map Bond.atom_indices = bonds2.map Bond.atom_indices) :
    bonds1.foldl (process_bond n d params charges) acc =
      bonds2.foldl (process_bond n d params charges) acc := by
  induction bonds1 generalizing bonds2 acc with
  | nil =>
    cases bonds2 with
    | nil => rfl
    | cons c cs => simp at h
  | cons b bs ih =>
    cases bonds2 with
    | nil => simp at h
    | cons c cs =>
      simp only [List.map_cons, List.cons.injEq] at h
      rw [List.foldl_cons, List.foldl_cons,
        process_bond_congr _ _ _ _ _ _ _ h.1, ih cs _ h.2]

lemma run_pass_congr (n : ℕ) (d : ℚ)
    (params : List (Option GasteigerParams)) (bonds1 bonds2 : List Bond)
    (charges : List ℚ)
    (h : bonds1.map Bond.atom_indices = bonds2.map Bond.atom_indices) :
    run_pass n d params bonds1 charges = run_pass n d params bonds2 charges := by
  simp only [run_pass, foldl_process_bond_congr _ _ _ _ bonds1 bonds2 _ h]

lemma compute_loop_congr (s : GasteigerSolver) (n : ℕ)
    (params : List (Option GasteigerParams)) (bonds1 bonds2 : List Bond)
    (k : ℕ) (d : ℚ) (charges : List ℚ)
    (h : bonds1.map Bond.atom_indices = bonds2.map Bond.atom_indices) :
    compute_loop s n params bonds1 k d charges =
      compute_loop s n params bonds2 k d charges := by
  induction k generalizing d charges with
  | zero => rfl
  | succ m ih =>
    show compute_loop s n params bonds1 m (d * s.damping) _ =
      compute_loop s n params bonds2 m (d * s.damping) _
    rw [run_pass_congr _ _ _ bonds1 bonds2 _ h, ih]

/-- C8: two inputs with identical atoms and bond lists that agree in endpoint
pairs and listing order, but carry arbitrary differing bond orders, produce
identical charge vectors — neither the solver iteration nor the hybridization
estimator ever reads `bond_order`. -/
theorem bond_order_noninterference (s : GasteigerSolver) (atoms : List Atom)
    (bonds1 bonds2 : List Bond)
    (h : bonds1.map Bond.atom_indices = bonds2.map Bond.atom_indices) :
    compute_charges s atoms bonds1 = compute_charges s atoms bonds2 := by
  simp only [compute_charges, atom_params_congr atoms bonds1 bonds2 h,
    compute_loop_congr s _ _ bonds1 bonds2 _ _ _ h]

/-- C8 (witness): changing the order of a single bond from 1 to 3 leaves the
output unchanged. -/
theorem bond_order_noninterference_witness :
    ([⟨(0, 1), 1⟩] : List Bond).map Bond.atom_indices =
        ([⟨(0, 1), 3⟩] : List Bond).map Bond.atom_indices ∧
      compute_charges GasteigerSolver.default [⟨8, 0⟩, ⟨1, 0⟩]
          [⟨(0, 1), 1⟩] =
        compute_charges GasteigerSolver.default [⟨8, 0⟩, ⟨1, 0⟩]
          [⟨(0, 1), 3⟩] :=
  ⟨rfl, bond_order_noninterference GasteigerSolver.default [⟨8, 0⟩, ⟨1, 0⟩]
    [⟨(0, 1), 1⟩] [⟨(0, 1), 3⟩] rfl⟩

/-! ### Claim C9: bond-endpoint symmetry -/

lemma process_bond_swap (n : ℕ) (d : ℚ)
    (params : List (Option GasteigerParams)) (charges delta : List ℚ)
    (i j : ℕ) (o o2 : ℚ) :
    process_bond n d params charges delta ⟨(i, j), o⟩ =
      process_bond n d params charges delta ⟨(j, i), o2⟩ := by
  simp only [process_bond]
  by_cases hr : i ≥ n ∨ j ≥ n
  · rw [if_pos hr, if_pos (Or.symm hr)]
  · rw [if_neg hr, if_neg (fun hc => hr (Or.symm hc))]
    rcases hpi : params.getD i none with _ | p_i
    · rcases hpj : params.getD j none with _ | p_j <;> simp [hpi, hpj]
    · rcases hpj : params.getD j none with _ | p_j
      · simp [hpi, hpj]
      · simp only [hpi, hpj]
        rcases lt_trichotomy (calculate_electronegativity p_i (charges.getD i 0))
            (calculate_electronegativity p_j (charges.getD j 0)) with h1 | h1 | h1
        · rw [if_pos h1, if_neg (not_lt_of_gt h1), if_pos h1]
        · have hn : ¬ (calculate_electronegativity p_i (charges.getD i 0) <
              calculate_electronegativity p_j (charges.getD j 0)) := by
            rw [h1]; exact lt_irrefl _
          have hn2 : ¬ (calculate_electronegativity p_j (charges.getD j 0) <
              calculate_electronegativity p_i (charges.getD i 0)) := by
            rw [h1]; exact lt_irrefl _
          rw [if_neg hn, if_neg hn2, if_neg hn2, if_neg hn]
        · rw [if_neg (not_lt_of_gt h1), if_pos h1, if_pos h1]

lemma neighbor_count_swap (idx : ℕ) (pre post : List Bond) (i j : ℕ)
    (o o2 : ℚ) :
    neighbor_count idx (pre ++ ⟨(i, j), o⟩ :: post) =
      neighbor_count idx (pre ++ ⟨(j, i), o2⟩ :: post) := by
  simp only [neighbor_count, List.foldl_append, List.foldl_cons]
  congr 1
  exact if_congr or_comm rfl rfl

lemma guess_hybridization_swap (idx : ℕ) (atoms : List Atom)
    (pre post : List Bond) (i j : ℕ) (o o2 : ℚ) :
    guess_hybridization idx atoms (pre ++ ⟨(i, j), o⟩ :: post) =
      guess_hybridization idx atoms (pre ++ ⟨(j, i), o2⟩ :: post) := by
  simp only [guess_hybridization, neighbor_count_swap idx pre post i j o o2]

lemma atom_params_swap (atoms : List Atom) (pre post : List Bond)
    (i j : ℕ) (o o2 : ℚ) :
    atom_params atoms (pre ++ ⟨(i, j), o⟩ :: post) =
      atom_params atoms (pre ++ ⟨(j, i), o2⟩ :: post) := by
  simp only [atom_params]
  apply List.map_congr_left
  intro v _
  simp only [resolve_params, guess_hybridization_swap v atoms pre post i j o o2]

lemma run_pass_swap (n : ℕ) (d : ℚ)
    (params : List (Option GasteigerParams)) (pre post : List Bond)
    (i j : ℕ) (o o2 : ℚ) (charges : List ℚ) :
    run_pass n d params (pre ++ ⟨(i, j), o⟩ :: post) charges =
      run_pass n d params (pre ++ ⟨(j, i), o2⟩ :: post) charges := by
  simp only [run_pass, List.foldl_append, List.foldl_cons]
  rw [process_bond_swap _ _ _ _ _ i j o o2]

lemma compute_loop_swap (s : GasteigerSolver) (n : ℕ)
    (params : List (Option GasteigerParams)) (pre post : List Bond)
    (i j : ℕ) (o o2 : ℚ) (k : ℕ) (d : ℚ) (charges : List ℚ) :
    compute_loop s n params (pre ++ ⟨(i, j), o⟩ :: post) k d charges =
      compute_loop s n params (pre ++ ⟨(j, i), o2⟩ :: post) k d charges := by
  induction k generalizing d charges with
  | zero => rfl
  | succ m ih =>
    show compute_loop s n params _ m (d * s.damping) _ =
      compute_loop s n params _ m (d * s.damping) _
    rw [run_pass_swap _ _ _ pre post i j o o2, ih]

/-- C9: replacing one bond whose endpoint pair is `(i, j)` by one with the
pair `(j, i)` (same bond order) leaves `compute_charges` unchanged: both the
incident-bond count and the per-bond transfer treat the pair as unordered. -/
theorem bond_endpoint_symmetry (s : GasteigerSolver) (atoms : List Atom)
    (pre post : List Bond) (i j : ℕ) (o : ℚ) :
    compute_charges s atoms (pre ++ ⟨(i, j), o⟩ :: post) =
      compute_charges s atoms (pre ++ ⟨(j, i), o⟩ :: post) := by
  simp only [compute_charges, atom_params_swap atoms pre post i j o o,
    compute_loop_swap s _ _ pre post i j o o]

/-! ### Claim C10: the fallback chain never fires -/

lemma get_params_isSome_iff (n : ℕ) (h : Hybridization) :
    (get_params n h).isSome = true ↔
      (n = 1 ∨
        ((n = 6 ∨ n = 7) ∧ (h = Sp3 ∨ h = Sp2 ∨ h = Sp)) ∨
        ((n = 8 ∨ n = 16) ∧ (h = Sp3 ∨ h = Sp2)) ∨
        (n = 9 ∨ n = 17 ∨ n = 35 ∨ n = 53) ∨
        n = 15) := by
  cases h <;> (unfold get_params; split) <;> simp_all

lemma get_params_guess_isSome (atoms : List Atom) (bonds : List Bond)
    (i : ℕ) :
    (get_params (atoms.getD i default).atomic_number
        (guess_hybridization i atoms bonds)).isSome = true ↔
      (atoms.getD i default).atomic_number ∈
        ([1, 6, 7, 8, 9, 15, 16, 17, 35, 53] : List ℕ) := by
  simp only [guess_hybridization]
  split <;> simp_all <;>
    first
      | decide
      | (split_ifs <;> decide)
      | (rw [get_params_isSome_iff]; simp; tauto)

lemma resolve_params_eq_first (atoms : List Atom) (bonds : List Bond)
    (i : ℕ) :
    resolve_params atoms bonds i =
      get_params (atoms.getD i default).atomic_number
        (guess_hybridization i atoms bonds) := by
  simp only [resolve_params]
  rcases hfirst : get_params (atoms.getD i default).atomic_number
      (guess_hybridization i atoms bonds) with _ | p
  · have hnotin : (atoms.getD i default).atomic_number ∉
        ([1, 6, 7, 8, 9, 15, 16, 17, 35, 53] : List ℕ) := by
      intro hin
      have hs := (get_params_guess_isSome atoms bonds i).mpr hin
      rw [hfirst] at hs
      cases hs
    have h3 : get_params (atoms.getD i default).atomic_number Sp3 = none := by
      rcases hsp : get_params (atoms.getD i default).atomic_number Sp3
        with _ | p
      · rfl
      · exfalso
        apply hnotin
        have hs : (get_params (atoms.getD i default).atomic_number Sp3).isSome
            = true := by rw [hsp]; rfl
        rw [get_params_isSome_iff] at hs
        simp only [List.mem_cons, List.not_mem_nil] at *
        tauto
    have h4 : get_params (atoms.getD i default).atomic_number
        Hybridization.Default = none := by
      rcases hsp : get_params (atoms.getD i default).atomic_number
        Hybridization.Default with _ | p
      · rfl
      · exfalso
        apply hnotin
        have hs : (get_params (atoms.getD i default).atomic_number
            Hybridization.Default).isSome = true := by rw [hsp]; rfl
        rw [get_params_isSome_iff] at hs
        simp only [List.mem_cons, List.not_mem_nil] at *
        tauto
    simp only [h3, h4]
    rfl
  · rfl

/-- C10: the three-step fallback resolution (estimated hybridization, then
Sp3, then Default) is extensionally equal to the first lookup alone, and that
first lookup succeeds exactly when the atomic number is one of the ten
supported elements — the estimator only ever produces hybridizations
tabulated for them, so the Sp3/Default fallbacks never alter the result. -/
theorem fallback_chain_never_fires (atoms : List Atom) (bonds : List Bond)
    (i : ℕ) :
    resolve_params atoms bonds i =
      get_params (atoms.getD i default).atomic_number
        (guess_hybridization i atoms bonds)
    ∧ ((get_params (atoms.getD i default).atomic_number
          (guess_hybridization i atoms bonds)).isSome = true ↔
        (atoms.getD i default).atomic_number ∈
          ([1, 6, 7, 8, 9, 15, 16, 17, 35, 53] : List ℕ)) :=
  ⟨resolve_params_eq_first atoms bonds i, get_params_guess_isSome atoms bonds i⟩
